import Mathlib

/-!
Shallow embedding of the Wasm instruction-stream builder
(`compiler/gen_wasm/src/code_builder.rs`): the operand-stack simulator,
the deferred-insertion ledger, and the symbol residency resolver
(`load_symbol`), together with proofs of the specified properties.

Rust `panic!` sites (including `usize` arithmetic underflow, which aborts
under debug assertions, and `debug_assert!`) are modelled as `none` /
`Except.error` results; all other code is translated directly.
-/

set_option maxHeartbeats 800000

namespace GenWasm

/-- Value types of the target machine (`parity_wasm::elements::ValueType`). -/
inductive ValueType where
  | I32 : ValueType
  | I64 : ValueType
  | F32 : ValueType
  | F64 : ValueType
deriving DecidableEq

/-- Result type annotation of a structured control instruction
(`parity_wasm::elements::BlockType`). -/
inductive BlockType where
  | NoResult : BlockType
  | Value (t : ValueType) : BlockType
deriving DecidableEq

/-- Branch-table payload (`parity_wasm::elements::BrTableData`): jump table
plus default label. -/
structure BrTableData where
  table : List Nat
  dflt : Nat
deriving DecidableEq

/-- The target instruction set (`parity_wasm::elements::Instruction`),
opaque to the builder beyond its arity classification.  Integer immediates
are modelled as `Nat`/`Int`; float immediates as their bit patterns. -/
inductive Instruction where
  | Unreachable : Instruction
  | Nop : Instruction
  | Block (a0 : BlockType) : Instruction
  | Loop (a0 : BlockType) : Instruction
  | If (a0 : BlockType) : Instruction
  | Else : Instruction
  | End : Instruction
  | Br (a0 : Nat) : Instruction
  | BrIf (a0 : Nat) : Instruction
  | BrTable (a0 : BrTableData) : Instruction
  | Return : Instruction
  | Call (a0 : Nat) : Instruction
  | CallIndirect (a0 : Nat) (a1 : Nat) : Instruction
  | Drop : Instruction
  | Select : Instruction
  | GetLocal (a0 : Nat) : Instruction
  | SetLocal (a0 : Nat) : Instruction
  | TeeLocal (a0 : Nat) : Instruction
  | GetGlobal (a0 : Nat) : Instruction
  | SetGlobal (a0 : Nat) : Instruction
  | I32Load (a0 : Nat) (a1 : Nat) : Instruction
  | I64Load (a0 : Nat) (a1 : Nat) : Instruction
  | F32Load (a0 : Nat) (a1 : Nat) : Instruction
  | F64Load (a0 : Nat) (a1 : Nat) : Instruction
  | I32Load8S (a0 : Nat) (a1 : Nat) : Instruction
  | I32Load8U (a0 : Nat) (a1 : Nat) : Instruction
  | I32Load16S (a0 : Nat) (a1 : Nat) : Instruction
  | I32Load16U (a0 : Nat) (a1 : Nat) : Instruction
  | I64Load8S (a0 : Nat) (a1 : Nat) : Instruction
  | I64Load8U (a0 : Nat) (a1 : Nat) : Instruction
  | I64Load16S (a0 : Nat) (a1 : Nat) : Instruction
  | I64Load16U (a0 : Nat) (a1 : Nat) : Instruction
  | I64Load32S (a0 : Nat) (a1 : Nat) : Instruction
  | I64Load32U (a0 : Nat) (a1 : Nat) : Instruction
  | I32Store (a0 : Nat) (a1 : Nat) : Instruction
  | I64Store (a0 : Nat) (a1 : Nat) : Instruction
  | F32Store (a0 : Nat) (a1 : Nat) : Instruction
  | F64Store (a0 : Nat) (a1 : Nat) : Instruction
  | I32Store8 (a0 : Nat) (a1 : Nat) : Instruction
  | I32Store16 (a0 : Nat) (a1 : Nat) : Instruction
  | I64Store8 (a0 : Nat) (a1 : Nat) : Instruction
  | I64Store16 (a0 : Nat) (a1 : Nat) : Instruction
  | I64Store32 (a0 : Nat) (a1 : Nat) : Instruction
  | CurrentMemory (a0 : Nat) : Instruction
  | GrowMemory (a0 : Nat) : Instruction
  | I32Const (a0 : Int) : Instruction
  | I64Const (a0 : Int) : Instruction
  | F32Const (a0 : Nat) : Instruction
  | F64Const (a0 : Nat) : Instruction
  | I32Eqz : Instruction
  | I32Eq : Instruction
  | I32Ne : Instruction
  | I32LtS : Instruction
  | I32LtU : Instruction
  | I32GtS : Instruction
  | I32GtU : Instruction
  | I32LeS : Instruction
  | I32LeU : Instruction
  | I32GeS : Instruction
  | I32GeU : Instruction
  | I64Eqz : Instruction
  | I64Eq : Instruction
  | I64Ne : Instruction
  | I64LtS : Instruction
  | I64LtU : Instruction
  | I64GtS : Instruction
  | I64GtU : Instruction
  | I64LeS : Instruction
  | I64LeU : Instruction
  | I64GeS : Instruction
  | I64GeU : Instruction
  | F32Eq : Instruction
  | F32Ne : Instruction
  | F32Lt : Instruction
  | F32Gt : Instruction
  | F32Le : Instruction
  | F32Ge : Instruction
  | F64Eq : Instruction
  | F64Ne : Instruction
  | F64Lt : Instruction
  | F64Gt : Instruction
  | F64Le : Instruction
  | F64Ge : Instruction
  | I32Clz : Instruction
  | I32Ctz : Instruction
  | I32Popcnt : Instruction
  | I32Add : Instruction
  | I32Sub : Instruction
  | I32Mul : Instruction
  | I32DivS : Instruction
  | I32DivU : Instruction
  | I32RemS : Instruction
  | I32RemU : Instruction
  | I32And : Instruction
  | I32Or : Instruction
  | I32Xor : Instruction
  | I32Shl : Instruction
  | I32ShrS : Instruction
  | I32ShrU : Instruction
  | I32Rotl : Instruction
  | I32Rotr : Instruction
  | I64Clz : Instruction
  | I64Ctz : Instruction
  | I64Popcnt : Instruction
  | I64Add : Instruction
  | I64Sub : Instruction
  | I64Mul : Instruction
  | I64DivS : Instruction
  | I64DivU : Instruction
  | I64RemS : Instruction
  | I64RemU : Instruction
  | I64And : Instruction
  | I64Or : Instruction
  | I64Xor : Instruction
  | I64Shl : Instruction
  | I64ShrS : Instruction
  | I64ShrU : Instruction
  | I64Rotl : Instruction
  | I64Rotr : Instruction
  | F32Abs : Instruction
  | F32Neg : Instruction
  | F32Ceil : Instruction
  | F32Floor : Instruction
  | F32Trunc : Instruction
  | F32Nearest : Instruction
  | F32Sqrt : Instruction
  | F32Add : Instruction
  | F32Sub : Instruction
  | F32Mul : Instruction
  | F32Div : Instruction
  | F32Min : Instruction
  | F32Max : Instruction
  | F32Copysign : Instruction
  | F64Abs : Instruction
  | F64Neg : Instruction
  | F64Ceil : Instruction
  | F64Floor : Instruction
  | F64Trunc : Instruction
  | F64Nearest : Instruction
  | F64Sqrt : Instruction
  | F64Add : Instruction
  | F64Sub : Instruction
  | F64Mul : Instruction
  | F64Div : Instruction
  | F64Min : Instruction
  | F64Max : Instruction
  | F64Copysign : Instruction
  | I32WrapI64 : Instruction
  | I32TruncSF32 : Instruction
  | I32TruncUF32 : Instruction
  | I32TruncSF64 : Instruction
  | I32TruncUF64 : Instruction
  | I64ExtendSI32 : Instruction
  | I64ExtendUI32 : Instruction
  | I64TruncSF32 : Instruction
  | I64TruncUF32 : Instruction
  | I64TruncSF64 : Instruction
  | I64TruncUF64 : Instruction
  | F32ConvertSI32 : Instruction
  | F32ConvertUI32 : Instruction
  | F32ConvertSI64 : Instruction
  | F32ConvertUI64 : Instruction
  | F32DemoteF64 : Instruction
  | F64ConvertSI32 : Instruction
  | F64ConvertUI32 : Instruction
  | F64ConvertSI64 : Instruction
  | F64ConvertUI64 : Instruction
  | F64PromoteF32 : Instruction
  | I32ReinterpretF32 : Instruction
  | I64ReinterpretF64 : Instruction
  | F32ReinterpretI32 : Instruction
  | F64ReinterpretI64 : Instruction
/-- The static opcode effect table (`get_pops_and_pushes`): instruction to
(pop count, produces-value?).  The source panics for the call family
("Unknown number of pushes and pops. Use add_call()"); modelled as `none`. -/
def get_pops_and_pushes : Instruction → Option (Nat × Bool)
  | .Unreachable => some (0, false)
  | .Nop => some (0, false)
  | .Block _ => some (0, false)
  | .Loop _ => some (0, false)
  | .If _ => some (1, false)
  | .Else => some (0, false)
  | .End => some (0, false)
  | .Br _ => some (0, false)
  | .BrIf _ => some (1, false)
  | .BrTable _ => some (1, false)
  | .Return => some (0, false)
  | .Call _ => none
  | .CallIndirect _ _ => none
  | .Drop => some (1, false)
  | .Select => some (3, true)
  | .GetLocal _ => some (0, true)
  | .SetLocal _ => some (1, false)
  | .TeeLocal _ => some (1, true)
  | .GetGlobal _ => some (0, true)
  | .SetGlobal _ => some (1, false)
  | .I32Load _ _ => some (1, true)
  | .I64Load _ _ => some (1, true)
  | .F32Load _ _ => some (1, true)
  | .F64Load _ _ => some (1, true)
  | .I32Load8S _ _ => some (1, true)
  | .I32Load8U _ _ => some (1, true)
  | .I32Load16S _ _ => some (1, true)
  | .I32Load16U _ _ => some (1, true)
  | .I64Load8S _ _ => some (1, true)
  | .I64Load8U _ _ => some (1, true)
  | .I64Load16S _ _ => some (1, true)
  | .I64Load16U _ _ => some (1, true)
  | .I64Load32S _ _ => some (1, true)
  | .I64Load32U _ _ => some (1, true)
  | .I32Store _ _ => some (2, false)
  | .I64Store _ _ => some (2, false)
  | .F32Store _ _ => some (2, false)
  | .F64Store _ _ => some (2, false)
  | .I32Store8 _ _ => some (2, false)
  | .I32Store16 _ _ => some (2, false)
  | .I64Store8 _ _ => some (2, false)
  | .I64Store16 _ _ => some (2, false)
  | .I64Store32 _ _ => some (2, false)
  | .CurrentMemory _ => some (0, true)
  | .GrowMemory _ => some (1, true)
  | .I32Const _ => some (0, true)
  | .I64Const _ => some (0, true)
  | .F32Const _ => some (0, true)
  | .F64Const _ => some (0, true)
  | .I32Eqz => some (1, true)
  | .I32Eq => some (2, true)
  | .I32Ne => some (2, true)
  | .I32LtS => some (2, true)
  | .I32LtU => some (2, true)
  | .I32GtS => some (2, true)
  | .I32GtU => some (2, true)
  | .I32LeS => some (2, true)
  | .I32LeU => some (2, true)
  | .I32GeS => some (2, true)
  | .I32GeU => some (2, true)
  | .I64Eqz => some (1, true)
  | .I64Eq => some (2, true)
  | .I64Ne => some (2, true)
  | .I64LtS => some (2, true)
  | .I64LtU => some (2, true)
  | .I64GtS => some (2, true)
  | .I64GtU => some (2, true)
  | .I64LeS => some (2, true)
  | .I64LeU => some (2, true)
  | .I64GeS => some (2, true)
  | .I64GeU => some (2, true)
  | .F32Eq => some (2, true)
  | .F32Ne => some (2, true)
  | .F32Lt => some (2, true)
  | .F32Gt => some (2, true)
  | .F32Le => some (2, true)
  | .F32Ge => some (2, true)
  | .F64Eq => some (2, true)
  | .F64Ne => some (2, true)
  | .F64Lt => some (2, true)
  | .F64Gt => some (2, true)
  | .F64Le => some (2, true)
  | .F64Ge => some (2, true)
  | .I32Clz => some (1, true)
  | .I32Ctz => some (1, true)
  | .I32Popcnt => some (1, true)
  | .I32Add => some (2, true)
  | .I32Sub => some (2, true)
  | .I32Mul => some (2, true)
  | .I32DivS => some (2, true)
  | .I32DivU => some (2, true)
  | .I32RemS => some (2, true)
  | .I32RemU => some (2, true)
  | .I32And => some (2, true)
  | .I32Or => some (2, true)
  | .I32Xor => some (2, true)
  | .I32Shl => some (2, true)
  | .I32ShrS => some (2, true)
  | .I32ShrU => some (2, true)
  | .I32Rotl => some (2, true)
  | .I32Rotr => some (2, true)
  | .I64Clz => some (1, true)
  | .I64Ctz => some (1, true)
  | .I64Popcnt => some (1, true)
  | .I64Add => some (2, true)
  | .I64Sub => some (2, true)
  | .I64Mul => some (2, true)
  | .I64DivS => some (2, true)
  | .I64DivU => some (2, true)
  | .I64RemS => some (2, true)
  | .I64RemU => some (2, true)
  | .I64And => some (2, true)
  | .I64Or => some (2, true)
  | .I64Xor => some (2, true)
  | .I64Shl => some (2, true)
  | .I64ShrS => some (2, true)
  | .I64ShrU => some (2, true)
  | .I64Rotl => some (2, true)
  | .I64Rotr => some (2, true)
  | .F32Abs => some (1, true)
  | .F32Neg => some (1, true)
  | .F32Ceil => some (1, true)
  | .F32Floor => some (1, true)
  | .F32Trunc => some (1, true)
  | .F32Nearest => some (1, true)
  | .F32Sqrt => some (1, true)
  | .F32Add => some (2, true)
  | .F32Sub => some (2, true)
  | .F32Mul => some (2, true)
  | .F32Div => some (2, true)
  | .F32Min => some (2, true)
  | .F32Max => some (2, true)
  | .F32Copysign => some (2, true)
  | .F64Abs => some (1, true)
  | .F64Neg => some (1, true)
  | .F64Ceil => some (1, true)
  | .F64Floor => some (1, true)
  | .F64Trunc => some (1, true)
  | .F64Nearest => some (1, true)
  | .F64Sqrt => some (1, true)
  | .F64Add => some (2, true)
  | .F64Sub => some (2, true)
  | .F64Mul => some (2, true)
  | .F64Div => some (2, true)
  | .F64Min => some (2, true)
  | .F64Max => some (2, true)
  | .F64Copysign => some (2, true)
  | .I32WrapI64 => some (1, true)
  | .I32TruncSF32 => some (1, true)
  | .I32TruncUF32 => some (1, true)
  | .I32TruncSF64 => some (1, true)
  | .I32TruncUF64 => some (1, true)
  | .I64ExtendSI32 => some (1, true)
  | .I64ExtendUI32 => some (1, true)
  | .I64TruncSF32 => some (1, true)
  | .I64TruncUF32 => some (1, true)
  | .I64TruncSF64 => some (1, true)
  | .I64TruncUF64 => some (1, true)
  | .F32ConvertSI32 => some (1, true)
  | .F32ConvertUI32 => some (1, true)
  | .F32ConvertSI64 => some (1, true)
  | .F32ConvertUI64 => some (1, true)
  | .F32DemoteF64 => some (1, true)
  | .F64ConvertSI32 => some (1, true)
  | .F64ConvertUI32 => some (1, true)
  | .F64ConvertSI64 => some (1, true)
  | .F64ConvertUI64 => some (1, true)
  | .F64PromoteF32 => some (1, true)
  | .I32ReinterpretF32 => some (1, true)
  | .I64ReinterpretF64 => some (1, true)
  | .F32ReinterpretI32 => some (1, true)
  | .F64ReinterpretI64 => some (1, true)


/-- Interned identifier of one named IR value (`roc_module::symbol::Symbol`);
opaque and comparable, modelled as `Nat`. -/
abbrev Symbol := Nat

/-- The distinguished symbol used for anonymous stack slots
(`Symbol::WASM_ANONYMOUS_STACK_VALUE`). -/
def Symbol.WASM_ANONYMOUS_STACK_VALUE : Symbol := 0

/-- Index of a local-variable slot in the generated function (`LocalId(u32)`). -/
structure LocalId where
  id : Nat
deriving DecidableEq

/-- Lifecycle tag relating one symbol to the simulated stack
(`VirtualMachineSymbolState`): not yet produced, pushed at a recorded buffer
position, or pushed and since popped. -/
inductive VirtualMachineSymbolState where
  | NotYetPushed : VirtualMachineSymbolState
  | Pushed (pushed_at : Nat) : VirtualMachineSymbolState
  | Popped (pushed_at : Nat) : VirtualMachineSymbolState
deriving DecidableEq

/-- The instruction-stream builder (`CodeBuilder`): instruction buffer,
deferred-insertion ledger (a `BTreeMap`, modelled as a key-sorted
association list), and the simulated VM stack (bottom first, top last). -/
structure CodeBuilder where
  code : List Instruction
  insertions : List (Nat × Instruction)
  vm_stack : List Symbol

/-- Sorted-insert into the ledger, mirroring `BTreeMap::insert`: an entry at
an existing key replaces the old value; otherwise the new entry is placed in
ascending key position. -/
def insertBTree (k : Nat) (v : Instruction) : List (Nat × Instruction) → List (Nat × Instruction)
  | [] => [(k, v)]
  | (q, w) :: rest =>
    if k < q then (k, v) :: (q, w) :: rest
    else if k = q then (k, v) :: rest
    else (q, w) :: insertBTree k v rest

/-- Ledger lookup by key (first matching entry). -/
def lookupIns (pos : Nat) : List (Nat × Instruction) → Option Instruction
  | [] => none
  | (q, w) :: rest => if q = pos then some w else lookupIns pos rest

/-- Index of the last occurrence of a symbol, mirroring
`Iterator::rposition` on the simulated stack. -/
def rposition (s : Symbol) : List Symbol → Option Nat
  | [] => none
  | x :: xs =>
    match rposition s xs with
    | some i => some (i + 1)
    | none => if x = s then some 0 else none

/-- Fresh builder (`CodeBuilder::new`). -/
def CodeBuilder.new : CodeBuilder := ⟨[], [], []⟩

/-- Reset for reuse across function bodies (`CodeBuilder::clear`). -/
def CodeBuilder.clear (_ : CodeBuilder) : CodeBuilder := ⟨[], [], []⟩

/-- Record one instruction (`CodeBuilder::push`): pop its operands from the
simulated stack, push an anonymous slot if it produces a value, append it to
the buffer.  `vm_stack.len() - pops` underflows (fatal) when the pop count
exceeds the simulated depth; the call family is fatal in the effect table. -/
def CodeBuilder.push (cb : CodeBuilder) (inst : Instruction) : Option CodeBuilder :=
  match get_pops_and_pushes inst with
  | none => none
  | some (pops, psh) =>
    if pops ≤ cb.vm_stack.length then
      let new_len := cb.vm_stack.length - pops
      let s := cb.vm_stack.take new_len
      some { cb with
        vm_stack := if psh then s ++ [Symbol.WASM_ANONYMOUS_STACK_VALUE] else s,
        code := cb.code ++ [inst] }
    else none

/-- Record each instruction of a list in order with `CodeBuilder.push`
(the sequential form that `extend_from_slice` claims to match). -/
def pushAll (cb : CodeBuilder) : List Instruction → Option CodeBuilder
  | [] => some cb
  | inst :: rest =>
    match cb.push inst with
    | some cb1 => pushAll cb1 rest
    | none => none

/-- The single pass of `CodeBuilder::extend_from_slice` over a batch:
running stack length and minimum length reached, with the same fatal
conditions (`len -= pops` underflow, call-family instruction) as the loop. -/
def batchLens (len minLen : Nat) : List Instruction → Option (Nat × Nat)
  | [] => some (len, minLen)
  | inst :: rest =>
    match get_pops_and_pushes inst with
    | none => none
    | some (pops, psh) =>
      if pops ≤ len then
        let len1 := len - pops
        let minLen1 := if len1 < minLen then len1 else minLen
        batchLens (if psh then len1 + 1 else len1) minLen1 rest
      else none

/-- Record many instructions at once (`CodeBuilder::extend_from_slice`):
truncate the simulated stack to the minimum length reached, resize to the
final length with anonymous slots, append the batch to the buffer. -/
def CodeBuilder.extend_from_slice (cb : CodeBuilder) (instructions : List Instruction) :
    Option CodeBuilder :=
  match batchLens cb.vm_stack.length cb.vm_stack.length instructions with
  | none => none
  | some (len, minLen) =>
    some { cb with
      vm_stack := cb.vm_stack.take minLen ++
        List.replicate (len - minLen) Symbol.WASM_ANONYMOUS_STACK_VALUE,
      code := cb.code ++ instructions }

/-- One left-to-right merge pass (`CodeBuilder::finalize_into`'s loop):
walk the buffer from `pos`, emitting the next ledger entry first whenever
its key equals the current position.  Returns the merged output and the
ledger entries the cursor never consumed. -/
def mergeCode : List Instruction → List (Nat × Instruction) → Nat →
    List Instruction × List (Nat × Instruction)
  | [], ins, _ => ([], ins)
  | c :: cs, [], pos =>
    let r := mergeCode cs [] (pos + 1)
    (c :: r.1, r.2)
  | c :: cs, (k, i) :: ins1, pos =>
    if k = pos then
      let r := mergeCode cs ins1 (pos + 1)
      (i :: c :: r.1, r.2)
    else
      let r := mergeCode cs ((k, i) :: ins1) (pos + 1)
      (c :: r.1, r.2)

/-- Finalize a function body (`CodeBuilder::finalize_into`): merge buffer
and ledger; `debug_assert!(next_insertion == None)` — an unconsumed ledger
entry is fatal, modelled as `none`. -/
def CodeBuilder.finalize_into (cb : CodeBuilder) : Option (List Instruction) :=
  match mergeCode cb.code cb.insertions 0 with
  | (merged, []) => some merged
  | _ => none

/-- Total number of instructions in the final output (`CodeBuilder::len`). -/
def CodeBuilder.len (cb : CodeBuilder) : Nat :=
  cb.code.length + cb.insertions.length

/-- Diagnostic payload of the `push_call` arity panic: the formatted message
dumps the function index, requested pops, current depth, the finalized code
so far, and the live simulated stack. -/
structure CallError where
  function_index : Nat
  pops : Nat
  stack_depth : Nat
  final_code : List Instruction
  vm_stack : List Symbol

/-- Record a call instruction with explicit arity (`CodeBuilder::push_call`):
fatal (with the diagnostic dump, before any mutation) when the argument
count exceeds the simulated depth; otherwise pop the arguments, push an
anonymous result slot if the call produces a value, append `Call`. -/
def CodeBuilder.push_call (cb : CodeBuilder) (function_index pops : Nat) (psh : Bool) :
    Except CallError CodeBuilder :=
  let stack_depth := cb.vm_stack.length
  if stack_depth < pops then
    .error ⟨function_index, pops, stack_depth, (mergeCode cb.code cb.insertions 0).1, cb.vm_stack⟩
  else
    let s := cb.vm_stack.take (stack_depth - pops)
    .ok { cb with
      vm_stack := if psh then s ++ [Symbol.WASM_ANONYMOUS_STACK_VALUE] else s,
      code := cb.code ++ [.Call function_index] }

/-- Bind the top simulated slot to a symbol (`CodeBuilder::set_top_symbol`):
fatal on an empty stack; records `pushed_at` = current buffer length (the
position immediately after the producing instruction). -/
def CodeBuilder.set_top_symbol (cb : CodeBuilder) (sym : Symbol) :
    Option (CodeBuilder × VirtualMachineSymbolState) :=
  let len := cb.vm_stack.length
  let pushed_at := cb.code.length
  if len = 0 then none
  else some ({ cb with vm_stack := cb.vm_stack.set (len - 1) sym },
    .Pushed pushed_at)

/-- Check that `symbols` occupy the topmost slots of the simulated stack in
order (`CodeBuilder::verify_stack_match`). -/
def CodeBuilder.verify_stack_match (cb : CodeBuilder) (symbols : List Symbol) : Bool :=
  let n := symbols.length
  let d := cb.vm_stack.length
  if n > d then false
  else cb.vm_stack.drop (d - n) == symbols

/-- The symbol residency resolver (`CodeBuilder::load_symbol`).  Decides how
to surface a named value as the next operand: fatal for `NotYetPushed`;
zero-cost when the symbol is on top (`Pushed`); first out-of-order reuse
(retroactive `SetLocal` at the production site, `GetLocal` here) when it is
elsewhere in the stack; fatal when unlocatable; second-or-later reuse
(`Popped`: retroactive `TeeLocal`, `GetLocal` here).  Returns the updated
lifecycle state, or `none` inside `some` when the symbol is demoted to a
local. -/
def CodeBuilder.load_symbol (cb : CodeBuilder) (symbol : Symbol)
    (vm_state : VirtualMachineSymbolState) (next_local_id : LocalId) :
    Option (CodeBuilder × Option VirtualMachineSymbolState) :=
  match vm_state with
  | .NotYetPushed => none
  | .Pushed pushed_at =>
    match cb.vm_stack.getLast? with
    | none => none
    | some top =>
      if top = symbol then
        some (cb, some (.Popped pushed_at))
      else
        match rposition symbol cb.vm_stack with
        | some found_index =>
          some ({ code := cb.code ++ [.GetLocal next_local_id.id],
                  insertions := insertBTree pushed_at (.SetLocal next_local_id.id) cb.insertions,
                  vm_stack := cb.vm_stack.eraseIdx found_index ++ [symbol] }, none)
        | none => none
  | .Popped pushed_at =>
    some ({ code := cb.code ++ [.GetLocal next_local_id.id],
            insertions := insertBTree pushed_at (.TeeLocal next_local_id.id) cb.insertions,
            vm_stack := cb.vm_stack ++ [symbol] }, none)

/-- Modelled from the spec: the read-only `depth()` accessor of the operand
stack simulator (the source reads `vm_stack.len()` directly at each use). -/
def CodeBuilder.depth (cb : CodeBuilder) : Nat := cb.vm_stack.length

/-- Follows the spec's words (merge ordering): position by position, the
output carries the ledger entry anchored at the position (if any)
immediately before the buffer's own instruction at that position. -/
def specMergeFrom (ins : List (Nat × Instruction)) : Nat → List Instruction → List Instruction
  | _, [] => []
  | pos, c :: cs =>
    match lookupIns pos ins with
    | some i => i :: c :: specMergeFrom ins (pos + 1) cs
    | none => c :: specMergeFrom ins (pos + 1) cs

/-- Follows the spec's words: the finalized output described positionally,
starting from buffer position 0. -/
def specFinalize (ins : List (Nat × Instruction)) (code : List Instruction) : List Instruction :=
  specMergeFrom ins 0 code

/-- The per-symbol lifecycle states held by the external lowering pass,
threaded across resolver calls (an association list symbol ↦ state). -/
abbrev SymState := List (Symbol × VirtualMachineSymbolState)

/-- Update (or add) the lifecycle state the pass holds for a symbol. -/
def envSet (s : Symbol) (st : VirtualMachineSymbolState) : SymState → SymState
  | [] => [(s, st)]
  | (q, w) :: rest => if q = s then (s, st) :: rest else (q, w) :: envSet s st rest

/-- Drop a symbol from the pass's lifecycle map (the resolver demoted it to
a local, so it no longer has a stack-resident state). -/
def envRemove (s : Symbol) (env : SymState) : SymState :=
  env.filter (fun p => p.1 != s)

/-- Look up the lifecycle state the pass holds for a symbol. -/
def envLookup (s : Symbol) : SymState → Option VirtualMachineSymbolState
  | [] => none
  | (q, w) :: rest => if q = s then some w else envLookup s rest

/-- Apply a resolver result to the pass's lifecycle map: a returned state is
stored back; `none` means demoted to a local. -/
def envUpdate (s : Symbol) (r : Option VirtualMachineSymbolState) (env : SymState) : SymState :=
  match r with
  | some st => envSet s st env
  | none => envRemove s env

/-- A builder together with the lifecycle states the driving pass holds. -/
structure TraceState where
  builder : CodeBuilder
  env : SymState

/-- One builder operation by the driving pass, with honest threading of the
lifecycle states: `load_symbol` is called exactly with the state most
recently reported for that symbol. -/
inductive Step : TraceState → TraceState → Prop where
  | push (t : TraceState) (inst : Instruction) (cb1 : CodeBuilder)
      (h : t.builder.push inst = some cb1) : Step t ⟨cb1, t.env⟩
  | extend (t : TraceState) (insts : List Instruction) (cb1 : CodeBuilder)
      (h : t.builder.extend_from_slice insts = some cb1) : Step t ⟨cb1, t.env⟩
  | call (t : TraceState) (fi pops : Nat) (psh : Bool) (cb1 : CodeBuilder)
      (h : t.builder.push_call fi pops psh = .ok cb1) : Step t ⟨cb1, t.env⟩
  | setTop (t : TraceState) (s : Symbol) (cb1 : CodeBuilder) (st : VirtualMachineSymbolState)
      (h : t.builder.set_top_symbol s = some (cb1, st)) :
      Step t ⟨cb1, envSet s st t.env⟩
  | load (t : TraceState) (s : Symbol) (st : VirtualMachineSymbolState) (L : LocalId)
      (cb1 : CodeBuilder) (r : Option VirtualMachineSymbolState)
      (henv : envLookup s t.env = some st)
      (h : t.builder.load_symbol s st L = some (cb1, r)) :
      Step t ⟨cb1, envUpdate s r t.env⟩
  | clear (t : TraceState) : Step t ⟨t.builder.clear, []⟩

/-- States reachable from a fresh builder by builder operations. -/
inductive Reachable : TraceState → Prop where
  | start : Reachable ⟨CodeBuilder.new, []⟩
  | step (t t1 : TraceState) : Reachable t → Step t t1 → Reachable t1

/-- The ledger-key invariant (amended): every recorded production position
is at most the buffer length, and every ledger key is strictly below the
buffer length. -/
def StateInv (t : TraceState) : Prop :=
  (∀ p ∈ t.env, ∀ k, (p.2 = .Pushed k ∨ p.2 = .Popped k) → k ≤ t.builder.code.length)
  ∧ (∀ kv ∈ t.builder.insertions, kv.1 < t.builder.code.length)

/-! ### Helper lemmas -/

theorem rposition_eq_none {s : Symbol} {l : List Symbol} (h : s ∉ l) :
    rposition s l = none := by
  induction l with
  | nil => rfl
  | cons x xs ih =>
    have hx : ¬ (x = s) := fun he => h (he ▸ List.mem_cons_self x xs)
    have hxs : s ∉ xs := fun hm => h (List.mem_cons_of_mem _ hm)
    simp [rposition, ih hxs, hx]

theorem rposition_of_mem {s : Symbol} {l : List Symbol} (h : s ∈ l) :
    ∃ i, rposition s l = some i := by
  induction l with
  | nil => exact absurd h (List.not_mem_nil _)
  | cons x xs ih =>
    by_cases hm : s ∈ xs
    · obtain ⟨i, hi⟩ := ih hm
      exact ⟨i + 1, by simp [rposition, hi]⟩
    · have hx : x = s := by
        rcases List.mem_cons.mp h with h1 | h2
        · exact h1.symm
        · exact absurd h2 hm
      exact ⟨0, by simp [rposition, rposition_eq_none hm, hx]⟩

theorem lookupIns_insertBTree (k : Nat) (v : Instruction) (l : List (Nat × Instruction)) :
    lookupIns k (insertBTree k v l) = some v := by
  induction l with
  | nil => simp [insertBTree, lookupIns]
  | cons p rest ih =>
    obtain ⟨q, w⟩ := p
    by_cases h1 : k < q
    · simp [insertBTree, h1, lookupIns]
    · by_cases h2 : k = q
      · simp [insertBTree, h1, h2, lookupIns]
      · have hq : ¬ (q = k) := fun he => h2 he.symm
        simp [insertBTree, h1, h2, lookupIns, hq, ih]

theorem length_insertBTree {k : Nat} {v : Instruction} {l : List (Nat × Instruction)}
    (h : ∀ kv ∈ l, kv.1 ≠ k) : (insertBTree k v l).length = l.length + 1 := by
  induction l with
  | nil => rfl
  | cons p rest ih =>
    obtain ⟨q, w⟩ := p
    have hqk : q ≠ k := h (q, w) (List.mem_cons_self _ _)
    have hrest : ∀ kv ∈ rest, kv.1 ≠ k := fun kv hm => h kv (List.mem_cons_of_mem _ hm)
    by_cases h1 : k < q
    · simp [insertBTree, h1]
    · have h2 : ¬ (k = q) := fun he => hqk he.symm
      simp [insertBTree, h1, h2, ih hrest]

theorem mem_insertBTree {kv : Nat × Instruction} {k : Nat} {v : Instruction}
    {l : List (Nat × Instruction)} (h : kv ∈ insertBTree k v l) :
    kv = (k, v) ∨ kv ∈ l := by
  induction l with
  | nil =>
    simp only [insertBTree] at h
    rcases List.mem_cons.mp h with h | h
    · exact Or.inl h
    · exact absurd h (List.not_mem_nil _)
  | cons p rest ih =>
    obtain ⟨q, w⟩ := p
    simp only [insertBTree] at h
    by_cases h1 : k < q
    · rw [if_pos h1] at h
      rcases List.mem_cons.mp h with h | h
      · exact Or.inl h
      · exact Or.inr h
    · rw [if_neg h1] at h
      by_cases h2 : k = q
      · rw [if_pos h2] at h
        rcases List.mem_cons.mp h with h | h
        · exact Or.inl h
        · exact Or.inr (List.mem_cons_of_mem _ h)
      · rw [if_neg h2] at h
        rcases List.mem_cons.mp h with h | h
        · exact Or.inr (h ▸ List.mem_cons_self _ _)
        · rcases ih h with h | h
          · exact Or.inl h
          · exact Or.inr (List.mem_cons_of_mem _ h)

/-! ### Claim theorems: resolver paths -/

/-- C1 (zero-cost path): in every builder state whose simulated stack has
`S` in the top slot, `load_symbol S (Pushed p) L` appends no instruction,
leaves the ledger unchanged (the builder is returned as is), consumes no
local slot (the result does not depend on `L`), and returns `Popped p`. -/
theorem zero_cost_path (cb : CodeBuilder) (S : Symbol) (p : Nat) (L : LocalId)
    (h : cb.vm_stack.getLast? = some S) :
    cb.load_symbol S (.Pushed p) L = some (cb, some (.Popped p)) := by
  simp [CodeBuilder.load_symbol, h]

theorem zero_cost_path_witness :
    ([(0 : Symbol), 5] : List Symbol).getLast? = some 5 ∧
    CodeBuilder.load_symbol ⟨[.I32Const 3, .I32Const 4], [], [0, 5]⟩ 5 (.Pushed 2) ⟨7⟩ =
      some (⟨[.I32Const 3, .I32Const 4], [], [0, 5]⟩, some (.Popped 2)) :=
  ⟨rfl, zero_cost_path ⟨[.I32Const 3, .I32Const 4], [], [0, 5]⟩ 5 2 ⟨7⟩ rfl⟩

/-- C10 (implicit frame effect of the zero-cost path): on the zero-cost
path the simulated stack is left completely unchanged — no field of the
builder is modified, and the symbol still occupies the top slot of the
returned builder's stack — even though the reported state is `Popped p`. -/
theorem zero_cost_frame (cb : CodeBuilder) (S : Symbol) (p : Nat) (L : LocalId)
    (h : cb.vm_stack.getLast? = some S) :
    ∃ r, cb.load_symbol S (.Pushed p) L = some r ∧ r.1 = cb ∧
      r.1.vm_stack.getLast? = some S ∧ r.2 = some (.Popped p) := by
  refine ⟨(cb, some (.Popped p)), ?_, rfl, h, rfl⟩
  simp [CodeBuilder.load_symbol, h]

theorem zero_cost_frame_witness :
    ∃ r, CodeBuilder.load_symbol ⟨[.Nop], [(0, .Nop)], [9]⟩ 9 (.Pushed 1) ⟨0⟩ = some r ∧
      r.1 = (⟨[.Nop], [(0, .Nop)], [9]⟩ : CodeBuilder) ∧
      r.1.vm_stack.getLast? = some 9 ∧ r.2 = some (.Popped 1) :=
  zero_cost_frame ⟨[.Nop], [(0, .Nop)], [9]⟩ 9 1 ⟨0⟩ rfl

/-- C3 (second-or-later reuse): for every builder state, resolving a
`Popped p` symbol schedules at `p` the preserve-and-store `TeeLocal L`
(not the plain `SetLocal L` used by the first out-of-order reuse), appends
a single `GetLocal L` at the current position, and reports the symbol
demoted to a local (`none` state). -/
theorem second_reuse_tee (cb : CodeBuilder) (S : Symbol) (p : Nat) (L : LocalId) :
    cb.load_symbol S (.Popped p) L =
      some ({ code := cb.code ++ [.GetLocal L.id],
              insertions := insertBTree p (.TeeLocal L.id) cb.insertions,
              vm_stack := cb.vm_stack ++ [S] }, none) ∧
    lookupIns p (insertBTree p (.TeeLocal L.id) cb.insertions) = some (.TeeLocal L.id) ∧
    Instruction.TeeLocal L.id ≠ Instruction.SetLocal L.id :=
  ⟨rfl, lookupIns_insertBTree p _ cb.insertions, fun h => Instruction.noConfusion h⟩

/-- C2 counterexample: a builder state reached through the public
operations (two `set_top_symbol` binds at the same buffer position, then a
spill) in which symbol `5` holds state `Pushed 2` and sits in the stack
below top, yet resolving it does not grow the ledger: the `BTreeMap`
insert replaces the existing entry anchored at position 2, so the ledger
still has one entry, not two. -/
theorem spill_replaces_ledger_entry :
    CodeBuilder.push CodeBuilder.new (.I32Const 0) = some ⟨[.I32Const 0], [], [0]⟩ ∧
    CodeBuilder.set_top_symbol ⟨[.I32Const 0], [], [0]⟩ 5 =
      some (⟨[.I32Const 0], [], [5]⟩, .Pushed 1) ∧
    CodeBuilder.push ⟨[.I32Const 0], [], [5]⟩ (.I32Const 1) =
      some ⟨[.I32Const 0, .I32Const 1], [], [5, 0]⟩ ∧
    CodeBuilder.set_top_symbol ⟨[.I32Const 0, .I32Const 1], [], [5, 0]⟩ 5 =
      some (⟨[.I32Const 0, .I32Const 1], [], [5, 5]⟩, .Pushed 2) ∧
    CodeBuilder.set_top_symbol ⟨[.I32Const 0, .I32Const 1], [], [5, 5]⟩ 6 =
      some (⟨[.I32Const 0, .I32Const 1], [], [5, 6]⟩, .Pushed 2) ∧
    CodeBuilder.push ⟨[.I32Const 0, .I32Const 1], [], [5, 6]⟩ (.I32Const 2) =
      some ⟨[.I32Const 0, .I32Const 1, .I32Const 2], [], [5, 6, 0]⟩ ∧
    CodeBuilder.load_symbol ⟨[.I32Const 0, .I32Const 1, .I32Const 2], [], [5, 6, 0]⟩ 6
        (.Pushed 2) ⟨0⟩ =
      some (⟨[.I32Const 0, .I32Const 1, .I32Const 2, .GetLocal 0],
        [(2, .SetLocal 0)], [5, 0, 6]⟩, none) ∧
    (5 : Symbol) ∈ ([5, 0, 6] : List Symbol) ∧
    ([5, 0, 6] : List Symbol).getLast? = some 6 ∧ (6 : Symbol) ≠ 5 ∧
    CodeBuilder.load_symbol ⟨[.I32Const 0, .I32Const 1, .I32Const 2, .GetLocal 0],
        [(2, .SetLocal 0)], [5, 0, 6]⟩ 5 (.Pushed 2) ⟨1⟩ =
      some (⟨[.I32Const 0, .I32Const 1, .I32Const 2, .GetLocal 0, .GetLocal 1],
        [(2, .SetLocal 1)], [0, 6, 5]⟩, none) ∧
    ¬ ([((2 : Nat), Instruction.SetLocal 1)].length =
        [((2 : Nat), Instruction.SetLocal 0)].length + 1) :=
  ⟨rfl, rfl, rfl, rfl, rfl, rfl, rfl, by simp, rfl, by decide, rfl, by decide⟩

/-- C2 (first out-of-order reuse, amended): when `S` has state `Pushed p`,
is in the simulated stack but not on top, `load_symbol` sets the ledger
entry anchored at `p` to the plain store `SetLocal L` (replacing any
existing entry at that anchor — the ledger grows by exactly one entry
whenever the anchor is fresh), removes `S`'s last prior occurrence from the
simulated stack, appends exactly one `GetLocal L` with the new top slot
bound to `S`, and reports `S` demoted to a local. -/
theorem first_reuse_spill (cb : CodeBuilder) (S T : Symbol) (p : Nat) (L : LocalId)
    (hmem : S ∈ cb.vm_stack) (htop : cb.vm_stack.getLast? = some T) (hne : T ≠ S) :
    ∃ idx, rposition S cb.vm_stack = some idx ∧
      cb.load_symbol S (.Pushed p) L =
        some ({ code := cb.code ++ [.GetLocal L.id],
                insertions := insertBTree p (.SetLocal L.id) cb.insertions,
                vm_stack := cb.vm_stack.eraseIdx idx ++ [S] }, none) ∧
      lookupIns p (insertBTree p (.SetLocal L.id) cb.insertions) = some (.SetLocal L.id) ∧
      ((∀ kv ∈ cb.insertions, kv.1 ≠ p) →
        (insertBTree p (.SetLocal L.id) cb.insertions).length = cb.insertions.length + 1) := by
  obtain ⟨idx, hidx⟩ := rposition_of_mem hmem
  refine ⟨idx, hidx, ?_, lookupIns_insertBTree _ _ _, fun hf => length_insertBTree hf⟩
  simp [CodeBuilder.load_symbol, htop, hidx, hne]

theorem first_reuse_spill_witness :
    ∃ idx, rposition 5 ([5, 6] : List Symbol) = some idx ∧
      CodeBuilder.load_symbol ⟨[.I32Const 0, .I32Const 1], [], [5, 6]⟩ 5 (.Pushed 1) ⟨0⟩ =
        some ({ code := [.I32Const 0, .I32Const 1] ++ [.GetLocal 0],
                insertions := insertBTree 1 (.SetLocal 0) [],
                vm_stack := ([5, 6] : List Symbol).eraseIdx idx ++ [5] }, none) ∧
      lookupIns 1 (insertBTree 1 (.SetLocal 0) []) = some (.SetLocal 0) ∧
      ((∀ kv ∈ ([] : List (Nat × Instruction)), kv.1 ≠ 1) →
        (insertBTree 1 (.SetLocal 0) []).length = ([] : List (Nat × Instruction)).length + 1) :=
  first_reuse_spill ⟨[.I32Const 0, .I32Const 1], [], [5, 6]⟩ 5 6 1 ⟨0⟩
    (by decide) rfl (by decide)

/-- C8 counterexample: a symbol produced, consumed from the top of the
stack (zero-cost resolve to `Popped`), then popped by a `Drop`.  At the
second resolve the symbol cannot be located anywhere in the simulated
stack, yet the `Popped` arm of `load_symbol` performs no lookup: the call
succeeds and emits instructions instead of failing. -/
theorem unlocatable_popped_emits :
    CodeBuilder.push ⟨[], [], []⟩ (.I32Const 7) = some ⟨[.I32Const 7], [], [0]⟩ ∧
    CodeBuilder.set_top_symbol ⟨[.I32Const 7], [], [0]⟩ 5 =
      some (⟨[.I32Const 7], [], [5]⟩, .Pushed 1) ∧
    CodeBuilder.load_symbol ⟨[.I32Const 7], [], [5]⟩ 5 (.Pushed 1) ⟨0⟩ =
      some (⟨[.I32Const 7], [], [5]⟩, some (.Popped 1)) ∧
    CodeBuilder.push ⟨[.I32Const 7], [], [5]⟩ .Drop = some ⟨[.I32Const 7, .Drop], [], []⟩ ∧
    (5 : Symbol) ∉ (⟨[.I32Const 7, .Drop], [], []⟩ : CodeBuilder).vm_stack ∧
    CodeBuilder.load_symbol ⟨[.I32Const 7, .Drop], [], []⟩ 5 (.Popped 1) ⟨0⟩ =
      some (⟨[.I32Const 7, .Drop, .GetLocal 0], [(1, .TeeLocal 0)], [5]⟩, none) ∧
    CodeBuilder.load_symbol ⟨[.I32Const 7, .Drop], [], []⟩ 5 (.Popped 1) ⟨0⟩ ≠ none :=
  ⟨rfl, rfl, rfl, rfl, by simp, rfl, Option.some_ne_none _⟩

/-- C8 (amended): claiming `Pushed p` for a symbol that cannot be located
anywhere in the simulated stack is a fatal internal-consistency defect —
`load_symbol` fails without emitting anything.  (The `Popped` arm performs
no stack lookup: a once-popped symbol is normally absent from the stack and
that arm always succeeds.) -/
theorem unlocatable_pushed_fatal (cb : CodeBuilder) (S : Symbol) (p : Nat) (L : LocalId)
    (h : S ∉ cb.vm_stack) :
    cb.load_symbol S (.Pushed p) L = none := by
  cases htop : cb.vm_stack.getLast? with
  | none => simp [CodeBuilder.load_symbol, htop]
  | some top =>
    have hne : ¬ (top = S) :=
      fun he => h (he ▸ List.mem_of_getLast?_eq_some htop)
    simp [CodeBuilder.load_symbol, htop, hne, rposition_eq_none h]

theorem unlocatable_pushed_fatal_witness :
    (5 : Symbol) ∉ ([3] : List Symbol) ∧
    CodeBuilder.load_symbol ⟨[.Nop], [], [3]⟩ 5 (.Pushed 0) ⟨0⟩ = none :=
  ⟨by decide, unlocatable_pushed_fatal ⟨[.Nop], [], [3]⟩ 5 0 ⟨0⟩ (by decide)⟩

/-- C6 (call-arity failure atomicity): when the argument count exceeds the
simulated depth, `push_call` fails before any mutation: the diagnostic
carries the call's function index and the full current abstract stack, and
the depth it records equals the pre-call depth (the builder is untouched,
so a subsequent `depth()` returns the pre-call value). -/
theorem call_arity_failure (cb : CodeBuilder) (fi pops : Nat) (psh : Bool)
    (h : cb.depth < pops) :
    ∃ e, cb.push_call fi pops psh = .error e ∧ e.function_index = fi ∧
      e.pops = pops ∧ e.vm_stack = cb.vm_stack ∧ e.stack_depth = cb.depth := by
  refine ⟨⟨fi, pops, cb.vm_stack.length, (mergeCode cb.code cb.insertions 0).1, cb.vm_stack⟩,
    ?_, rfl, rfl, rfl, rfl⟩
  have h2 : cb.vm_stack.length < pops := h
  simp only [CodeBuilder.push_call]
  rw [if_pos h2]

theorem call_arity_failure_witness :
    (⟨[.Nop], [], [1]⟩ : CodeBuilder).depth < 2 ∧
    ∃ e, CodeBuilder.push_call ⟨[.Nop], [], [1]⟩ 9 2 true = .error e ∧
      e.function_index = 9 ∧ e.pops = 2 ∧ e.vm_stack = [1] ∧
      e.stack_depth = (⟨[.Nop], [], [1]⟩ : CodeBuilder).depth :=
  ⟨by decide, call_arity_failure ⟨[.Nop], [], [1]⟩ 9 2 true (by decide)⟩

theorem pushAll_append_some {cb : CodeBuilder} {l1 l2 : List Instruction} {r : CodeBuilder}
    (h : pushAll cb (l1 ++ l2) = some r) : ∃ m, pushAll cb l1 = some m := by
  induction l1 generalizing cb with
  | nil => exact ⟨cb, rfl⟩
  | cons inst rest ih =>
    cases hp : cb.push inst with
    | none =>
      simp only [List.cons_append, pushAll, hp] at h
      exact Option.noConfusion h
    | some cb1 =>
      simp only [List.cons_append, pushAll, hp] at h ⊢
      exact ih h

/-- C7 (stack-depth law): for every instruction accepted by `push`, the
simulated depth afterwards satisfies `depthAfter + pops = depthBefore +
(push ? 1 : 0)` (the exact depth law, stated without truncated
subtraction); recording an instruction whose pop count exceeds the current
depth is fatal (`push` fails, a panic, never a user-facing error); and
every prefix of an accepted sequence is itself accepted, so the simulated
depth is well defined (and non-negative) at every prefix. -/
theorem stack_depth_law (cb : CodeBuilder) (inst : Instruction) (pops : Nat) (psh : Bool)
    (hg : get_pops_and_pushes inst = some (pops, psh)) :
    (pops ≤ cb.vm_stack.length →
      ∃ cb1, cb.push inst = some cb1 ∧
        cb1.vm_stack.length + pops = cb.vm_stack.length + (if psh then 1 else 0)) ∧
    (cb.vm_stack.length < pops → cb.push inst = none) ∧
    (∀ l1 l2 r, pushAll cb (l1 ++ l2) = some r → ∃ m, pushAll cb l1 = some m) := by
  refine ⟨fun hle => ?_, fun hlt => ?_, fun l1 l2 r h => pushAll_append_some h⟩
  · refine ⟨{ cb with
        vm_stack :=
          if psh then
            cb.vm_stack.take (cb.vm_stack.length - pops) ++ [Symbol.WASM_ANONYMOUS_STACK_VALUE]
          else cb.vm_stack.take (cb.vm_stack.length - pops),
        code := cb.code ++ [inst] }, ?_, ?_⟩
    · simp only [CodeBuilder.push, hg]
      rw [if_pos hle]
    · cases psh <;> simp [List.length_take] <;> omega
  · simp only [CodeBuilder.push, hg]
    rw [if_neg (Nat.not_le.mpr hlt)]

theorem stack_depth_law_witness :
    get_pops_and_pushes .I32Add = some (2, true) ∧
    ((2 ≤ ([3, 4] : List Symbol).length →
      ∃ cb1, CodeBuilder.push ⟨[], [], [3, 4]⟩ .I32Add = some cb1 ∧
        cb1.vm_stack.length + 2 = ([3, 4] : List Symbol).length + (if true then 1 else 0)) ∧
    (([3, 4] : List Symbol).length < 2 → CodeBuilder.push ⟨[], [], [3, 4]⟩ .I32Add = none) ∧
    (∀ l1 l2 r, pushAll ⟨[], [], [3, 4]⟩ (l1 ++ l2) = some r →
      ∃ m, pushAll ⟨[], [], [3, 4]⟩ l1 = some m)) :=
  ⟨rfl, stack_depth_law ⟨[], [], [3, 4]⟩ .I32Add 2 true rfl⟩


theorem lookupIns_eq_none {pos : Nat} {ins : List (Nat × Instruction)}
    (h : ∀ kv ∈ ins, pos < kv.1) : lookupIns pos ins = none := by
  induction ins with
  | nil => rfl
  | cons p rest ih =>
    obtain ⟨q, w⟩ := p
    have hq : pos < q := h (q, w) (List.mem_cons_self _ _)
    have hq2 : ¬ (q = pos) := by omega
    simp only [lookupIns, if_neg hq2]
    exact ih (fun kv hm => h kv (List.mem_cons_of_mem _ hm))

theorem specMergeFrom_cons (ins : List (Nat × Instruction)) (pos : Nat)
    (c : Instruction) (cs : List Instruction) :
    specMergeFrom ins pos (c :: cs) =
      match lookupIns pos ins with
      | some i => i :: c :: specMergeFrom ins (pos + 1) cs
      | none => c :: specMergeFrom ins (pos + 1) cs := rfl

theorem specMergeFrom_cons_lt {k : Nat} {i : Instruction} {ins : List (Nat × Instruction)} :
    ∀ (code : List Instruction) (pos : Nat), k < pos →
      specMergeFrom ((k, i) :: ins) pos code = specMergeFrom ins pos code
  | [], _, _ => rfl
  | c :: cs, pos, h => by
    have hk : ¬ (k = pos) := Nat.ne_of_lt h
    have ih := @specMergeFrom_cons_lt k i ins cs (pos + 1) (Nat.lt_succ_of_lt h)
    rw [specMergeFrom_cons, specMergeFrom_cons]
    simp only [lookupIns, if_neg hk]
    rw [ih]

theorem mergeCode_nil (ins : List (Nat × Instruction)) (pos : Nat) :
    mergeCode [] ins pos = ([], ins) := rfl

theorem mergeCode_cons_none (c : Instruction) (cs : List Instruction) (pos : Nat) :
    mergeCode (c :: cs) [] pos =
      ((c :: (mergeCode cs [] (pos + 1)).1), (mergeCode cs [] (pos + 1)).2) := rfl

theorem mergeCode_cons_hit (c : Instruction) (cs : List Instruction) (k : Nat)
    (i : Instruction) (ins1 : List (Nat × Instruction)) (pos : Nat) (h : k = pos) :
    mergeCode (c :: cs) ((k, i) :: ins1) pos =
      ((i :: c :: (mergeCode cs ins1 (pos + 1)).1), (mergeCode cs ins1 (pos + 1)).2) := by
  simp only [mergeCode]
  rw [if_pos h]

theorem mergeCode_cons_miss (c : Instruction) (cs : List Instruction) (k : Nat)
    (i : Instruction) (ins1 : List (Nat × Instruction)) (pos : Nat) (h : ¬ (k = pos)) :
    mergeCode (c :: cs) ((k, i) :: ins1) pos =
      ((c :: (mergeCode cs ((k, i) :: ins1) (pos + 1)).1),
        (mergeCode cs ((k, i) :: ins1) (pos + 1)).2) := by
  simp only [mergeCode]
  rw [if_neg h]

theorem mergeCode_eq_spec :
    ∀ (code : List Instruction) (ins : List (Nat × Instruction)) (pos : Nat),
      List.Pairwise (· < ·) (ins.map Prod.fst) →
      (∀ kv ∈ ins, pos ≤ kv.1) →
      (mergeCode code ins pos).1 = specMergeFrom ins pos code ∧
      ((mergeCode code ins pos).2 = [] ↔ ∀ kv ∈ ins, kv.1 < pos + code.length) ∧
      (mergeCode code ins pos).1.length + (mergeCode code ins pos).2.length
        = code.length + ins.length
  | [], ins, pos, hp, hlb => by
    rw [mergeCode_nil]
    refine ⟨rfl, ?_, by simp⟩
    constructor
    · intro h2 kv hm
      have : kv ∈ ([] : List (Nat × Instruction)) := h2 ▸ hm
      exact absurd this (List.not_mem_nil _)
    · intro hall
      cases ins with
      | nil => rfl
      | cons p rest =>
        have h1 := hlb p (List.mem_cons_self _ _)
        have h2 := hall p (List.mem_cons_self _ _)
        simp only [List.length_nil] at h2
        omega
  | c :: cs, [], pos, hp, hlb => by
    obtain ⟨ih1, ih2, ih3⟩ :=
      mergeCode_eq_spec cs [] (pos + 1) (by simp) (by simp)
    have h2 : (mergeCode cs [] (pos + 1)).2 = [] := ih2.mpr (by simp)
    rw [mergeCode_cons_none]
    refine ⟨?_, ?_, ?_⟩
    · rw [specMergeFrom_cons]
      simp only [lookupIns]
      rw [ih1]
    · simp [h2]
    · rw [h2] at ih3
      simp only [h2, List.length_cons, List.length_nil] at ih3 ⊢
      omega
  | c :: cs, (k, i) :: ins1, pos, hp, hlb => by
    have hk : pos ≤ k := hlb (k, i) (List.mem_cons_self _ _)
    have hp0 : List.Pairwise (· < ·) (k :: ins1.map Prod.fst) := hp
    obtain ⟨hhead, hp1⟩ := List.pairwise_cons.mp hp0
    have hgt : ∀ kv ∈ ins1, k < kv.1 :=
      fun kv hm => hhead kv.1 (List.mem_map.mpr ⟨kv, hm, rfl⟩)
    by_cases hpos : k = pos
    · obtain ⟨ih1, ih2, ih3⟩ :=
        mergeCode_eq_spec cs ins1 (pos + 1) hp1
          (fun kv hm => by have := hgt kv hm; omega)
      rw [mergeCode_cons_hit c cs k i ins1 pos hpos]
      refine ⟨?_, ?_, ?_⟩
      · rw [specMergeFrom_cons]
        have hlook : lookupIns pos ((k, i) :: ins1) = some i := by
          simp only [lookupIns, if_pos hpos]
        rw [hlook]
        simp only [ih1]
        have : specMergeFrom ((k, i) :: ins1) (pos + 1) cs
            = specMergeFrom ins1 (pos + 1) cs :=
          specMergeFrom_cons_lt cs (pos + 1) (by omega)
        rw [this]
      · simp only [List.length_cons]
        constructor
        · intro hnil kv hm
          rcases List.mem_cons.mp hm with he | hm1
          · subst he
            simp only
            omega
          · have := ih2.mp hnil kv hm1
            omega
        · intro hall
          refine ih2.mpr ?_
          intro kv hm
          have := hall kv (List.mem_cons_of_mem _ hm)
          omega
      · simp only [List.length_cons] at ih3 ⊢
        omega
    · have hklt : pos < k := by omega
      obtain ⟨ih1, ih2, ih3⟩ :=
        mergeCode_eq_spec cs ((k, i) :: ins1) (pos + 1) hp
          (by
            intro kv hm
            rcases List.mem_cons.mp hm with he | hm1
            · subst he; omega
            · have := hgt kv hm1; omega)
      have hlook : lookupIns pos ((k, i) :: ins1) = none := by
        refine lookupIns_eq_none ?_
        intro kv hm
        rcases List.mem_cons.mp hm with he | hm1
        · subst he; omega
        · have := hgt kv hm1; omega
      rw [mergeCode_cons_miss c cs k i ins1 pos hpos]
      refine ⟨?_, ?_, ?_⟩
      · rw [specMergeFrom_cons, hlook, ih1]
      · simp only [List.length_cons]
        constructor
        · intro hnil kv hm
          have := ih2.mp hnil kv hm
          omega
        · intro hall
          refine ih2.mpr ?_
          intro kv hm
          have := hall kv hm
          omega
      · simp only [List.length_cons] at ih3 ⊢
        omega

/-- C4 (finalize merge ordering and ledger drain): for a buffer of length
`n` and ledger entries at ascending positions, if every anchor lies below
`n` then `finalize_into` produces exactly the positional merge — each
anchored entry immediately before the buffer instruction it anchors to,
all other relative order preserved — of length `n + k`; and a leftover
entry (anchor position `≥ n`, never reached by the merge) makes
finalization fail the internal-consistency assertion. -/
theorem finalize_merge (cb : CodeBuilder)
    (hs : List.Chain' (· < ·) (cb.insertions.map Prod.fst)) :
    ((∀ kv ∈ cb.insertions, kv.1 < cb.code.length) →
      cb.finalize_into = some (specFinalize cb.insertions cb.code) ∧
      (specFinalize cb.insertions cb.code).length
        = cb.code.length + cb.insertions.length) ∧
    ((∃ kv ∈ cb.insertions, cb.code.length ≤ kv.1) → cb.finalize_into = none) := by
  have hp : List.Pairwise (· < ·) (cb.insertions.map Prod.fst) :=
    List.chain'_iff_pairwise.mp hs
  obtain ⟨h1, h2, h3⟩ :=
    mergeCode_eq_spec cb.code cb.insertions 0 hp (fun kv _ => Nat.zero_le _)
  constructor
  · intro hall
    have hnil : (mergeCode cb.code cb.insertions 0).2 = [] := by
      refine h2.mpr ?_
      intro kv hm
      have := hall kv hm
      omega
    constructor
    · unfold CodeBuilder.finalize_into
      rcases hmc : mergeCode cb.code cb.insertions 0 with ⟨merged, leftover⟩
      rw [hmc] at hnil h1
      simp only at hnil h1
      subst hnil
      simpa [specFinalize] using h1
    · rw [specFinalize, ← h1]
      rw [hnil] at h3
      simpa using h3
  · rintro ⟨kv, hmem, hge⟩
    have hne : ¬ ((mergeCode cb.code cb.insertions 0).2 = []) := by
      intro he
      have := h2.mp he kv hmem
      omega
    unfold CodeBuilder.finalize_into
    rcases hmc : mergeCode cb.code cb.insertions 0 with ⟨merged, leftover⟩
    rw [hmc] at hne
    simp only at hne
    cases leftover with
    | nil => exact absurd rfl hne
    | cons x xs => rfl

theorem finalize_merge_witness :
    List.Chain' (· < ·)
      (([(0, Instruction.SetLocal 4), (2, Instruction.TeeLocal 9)] :
        List (Nat × Instruction)).map Prod.fst) ∧
    ((∀ kv ∈ ([(0, Instruction.SetLocal 4), (2, Instruction.TeeLocal 9)] :
        List (Nat × Instruction)), kv.1 < ([.Nop, .Drop, .Else] : List Instruction).length) →
      CodeBuilder.finalize_into ⟨[.Nop, .Drop, .Else],
          [(0, .SetLocal 4), (2, .TeeLocal 9)], []⟩ =
        some (specFinalize [(0, .SetLocal 4), (2, .TeeLocal 9)] [.Nop, .Drop, .Else]) ∧
      (specFinalize [(0, .SetLocal 4), (2, .TeeLocal 9)] [.Nop, .Drop, .Else]).length
        = ([.Nop, .Drop, .Else] : List Instruction).length +
          ([(0, Instruction.SetLocal 4), (2, Instruction.TeeLocal 9)] :
            List (Nat × Instruction)).length) ∧
    ((∃ kv ∈ ([(0, Instruction.SetLocal 4), (2, Instruction.TeeLocal 9)] :
        List (Nat × Instruction)), ([.Nop, .Drop, .Else] : List Instruction).length ≤ kv.1) →
      CodeBuilder.finalize_into ⟨[.Nop, .Drop, .Else],
          [(0, .SetLocal 4), (2, .TeeLocal 9)], []⟩ = none) :=
  ⟨by simp [List.chain'_cons],
    finalize_merge ⟨[.Nop, .Drop, .Else], [(0, .SetLocal 4), (2, .TeeLocal 9)], []⟩
      (by simp [List.chain'_cons])⟩

theorem ite_lt_min (a b : Nat) : (if a < b then a else b) = min a b := by
  rcases Nat.lt_or_ge a b with h | h
  · rw [if_pos h, Nat.min_eq_left (Nat.le_of_lt h)]
  · rw [if_neg (Nat.not_lt.mpr h), Nat.min_eq_right h]

theorem ite_true_eq {α : Sort _} (a b : α) : (if true = true then a else b) = a := rfl

theorem ite_false_eq {α : Sort _} (a b : α) : (if false = true then a else b) = b := rfl

theorem batchLens_cons_none {inst : Instruction} (hg : get_pops_and_pushes inst = none)
    (len m : Nat) (rest : List Instruction) :
    batchLens len m (inst :: rest) = none := by
  simp only [batchLens, hg]

theorem batchLens_cons_some {inst : Instruction} {pops : Nat} {psh : Bool}
    (hg : get_pops_and_pushes inst = some (pops, psh)) (len m : Nat)
    (rest : List Instruction) :
    batchLens len m (inst :: rest) =
      if pops ≤ len then
        batchLens (if psh then len - pops + 1 else len - pops)
          (if len - pops < m then len - pops else m) rest
      else none := by
  simp only [batchLens, hg]

theorem batchLens_min :
    ∀ (insts : List Instruction) (len m : Nat), m ≤ len →
      batchLens len m insts =
        (batchLens len len insts).map (fun p => (p.1, min m p.2))
  | [], len, m, hm => by
    simp [batchLens, Nat.min_eq_left hm]
  | inst :: rest, len, m, hm => by
    cases hg : get_pops_and_pushes inst with
    | none => simp [batchLens_cons_none hg]
    | some pp =>
      obtain ⟨pops, psh⟩ := pp
      rw [batchLens_cons_some hg, batchLens_cons_some hg]
      by_cases hle : pops ≤ len
      · rw [if_pos hle, if_pos hle, ite_lt_min, ite_lt_min]
        have hsub : len - pops ≤ len := Nat.sub_le _ _
        rw [Nat.min_eq_left hsub]
        have hlen2 : len - pops ≤ (if psh then len - pops + 1 else len - pops) := by
          cases psh
          · rw [ite_false_eq]
          · rw [ite_true_eq]; omega
        have ihA := batchLens_min rest (if psh then len - pops + 1 else len - pops)
          (min (len - pops) m) (Nat.le_trans (Nat.min_le_left _ _) hlen2)
        have ihB := batchLens_min rest (if psh then len - pops + 1 else len - pops)
          (len - pops) hlen2
        rw [ihA, ihB]
        cases hX : batchLens (if psh then len - pops + 1 else len - pops)
            (if psh then len - pops + 1 else len - pops) rest with
        | none => rfl
        | some p =>
          obtain ⟨lf, mn⟩ := p
          simp only [Option.map_some', Option.some.injEq, Prod.mk.injEq]
          exact ⟨trivial, by simp [Nat.min_assoc, Nat.min_comm, Nat.min_left_comm]⟩
      · rw [if_neg hle, if_neg hle]
        rfl

theorem batchLens_bounds :
    ∀ (insts : List Instruction) (len m : Nat), m ≤ len →
      ∀ lf mn, batchLens len m insts = some (lf, mn) → mn ≤ lf ∧ mn ≤ m
  | [], len, m, hm, lf, mn, h => by
    simp only [batchLens, Option.some.injEq, Prod.mk.injEq] at h
    obtain ⟨h1, h2⟩ := h
    subst h1
    subst h2
    exact ⟨hm, Nat.le_refl _⟩
  | inst :: rest, len, m, hm, lf, mn, h => by
    cases hg : get_pops_and_pushes inst with
    | none =>
      rw [batchLens_cons_none hg] at h
      exact Option.noConfusion h
    | some pp =>
      obtain ⟨pops, psh⟩ := pp
      rw [batchLens_cons_some hg] at h
      by_cases hle : pops ≤ len
      · rw [if_pos hle, ite_lt_min] at h
        have hlen2 : min (len - pops) m ≤ (if psh then len - pops + 1 else len - pops) := by
          have h1 := Nat.min_le_left (len - pops) m
          cases psh
          · rw [ite_false_eq]; exact h1
          · rw [ite_true_eq]; omega
        have hb := batchLens_bounds rest _ _ hlen2 lf mn h
        exact ⟨hb.1, Nat.le_trans hb.2 (Nat.min_le_right _ _)⟩
      · rw [if_neg hle] at h
        exact Option.noConfusion h

/-- C5 (batch recording matches sequential recording): for every starting
builder and every instruction list, `extend_from_slice` computes exactly
the result of recording each instruction in order with `push` — the same
final simulated stack, the same appended buffer — and fails exactly when
the sequential form would fail (underflow mid-batch, or a call-family
instruction in the static table). -/
theorem batch_matches_sequential :
    ∀ (insts : List Instruction) (cb : CodeBuilder),
      cb.extend_from_slice insts = pushAll cb insts
  | [], cb => by
    obtain ⟨code, ins, vm⟩ := cb
    simp [CodeBuilder.extend_from_slice, batchLens, pushAll]
  | inst :: rest, cb => by
    obtain ⟨code, ins, vm⟩ := cb
    cases hg : get_pops_and_pushes inst with
    | none =>
      simp [CodeBuilder.extend_from_slice, batchLens_cons_none hg, pushAll,
        CodeBuilder.push, hg]
    | some pp =>
      obtain ⟨pops, psh⟩ := pp
      by_cases hle : pops ≤ vm.length
      · have ih := batch_matches_sequential rest
          ⟨code ++ [inst], ins,
            if psh then vm.take (vm.length - pops) ++ [Symbol.WASM_ANONYMOUS_STACK_VALUE]
            else vm.take (vm.length - pops)⟩
        have hpush : CodeBuilder.push ⟨code, ins, vm⟩ inst =
            some ⟨code ++ [inst], ins,
              if psh then vm.take (vm.length - pops) ++ [Symbol.WASM_ANONYMOUS_STACK_VALUE]
              else vm.take (vm.length - pops)⟩ := by
          simp only [CodeBuilder.push, hg]
          rw [if_pos hle]
        rw [show pushAll ⟨code, ins, vm⟩ (inst :: rest) =
            pushAll ⟨code ++ [inst], ins,
              if psh then vm.take (vm.length - pops) ++ [Symbol.WASM_ANONYMOUS_STACK_VALUE]
              else vm.take (vm.length - pops)⟩ rest from by
          simp only [pushAll, hpush]]
        rw [← ih]
        have htklen : (vm.take (vm.length - pops)).length = vm.length - pops := by
          simp [List.length_take, Nat.min_eq_left (Nat.sub_le _ _)]
        have hs1len : (if psh then
            vm.take (vm.length - pops) ++ [Symbol.WASM_ANONYMOUS_STACK_VALUE]
            else vm.take (vm.length - pops)).length
            = (if psh then vm.length - pops + 1 else vm.length - pops) := by
          cases psh
          · rw [ite_false_eq, ite_false_eq, htklen]
          · rw [ite_true_eq, ite_true_eq]
            simp [htklen]
        simp only [CodeBuilder.extend_from_slice]
        rw [batchLens_cons_some hg, if_pos hle, ite_lt_min,
          Nat.min_eq_left (Nat.sub_le _ _), hs1len]
        rw [batchLens_min rest _ (vm.length - pops)
          (by
            cases psh
            · rw [ite_false_eq]
            · rw [ite_true_eq]; omega)]
        cases hX : batchLens (if psh then vm.length - pops + 1 else vm.length - pops)
            (if psh then vm.length - pops + 1 else vm.length - pops) rest with
        | none => rfl
        | some p =>
          obtain ⟨lf, mn⟩ := p
          obtain ⟨hmnlf, hmnle⟩ :=
            batchLens_bounds rest _ _ (Nat.le_refl _) lf mn hX
          simp only [Option.map_some']
          refine congrArg some ?_
          simp only [CodeBuilder.mk.injEq]
          refine ⟨by simp, by trivial, ?_⟩
          cases psh with
          | false =>
            rw [ite_false_eq] at hmnle
            rw [ite_false_eq]
            rw [Nat.min_eq_right hmnle, List.take_take, Nat.min_eq_left hmnle]
          | true =>
            rw [ite_true_eq] at hmnle
            rw [ite_true_eq]
            rcases Nat.lt_or_ge mn (vm.length - pops + 1) with hlt | hge
            · have hmn1 : mn ≤ vm.length - pops := by omega
              rw [Nat.min_eq_right hmn1,
                List.take_append_of_le_length (by rw [htklen]; exact hmn1),
                List.take_take, Nat.min_eq_left hmn1]
            · have hmneq : mn = vm.length - pops + 1 := Nat.le_antisymm hmnle hge
              subst hmneq
              rw [Nat.min_eq_left (by omega)]
              have hlen1 : (vm.take (vm.length - pops)
                  ++ [Symbol.WASM_ANONYMOUS_STACK_VALUE]).length
                  ≤ vm.length - pops + 1 := by simp [htklen]
              rw [List.take_of_length_le hlen1]
              rw [List.append_assoc]
              congr 1
              have harith : lf - (vm.length - pops)
                  = (lf - (vm.length - pops + 1)) + 1 := by omega
              rw [harith, List.replicate_succ]
              rfl
      · have hp : CodeBuilder.push ⟨code, ins, vm⟩ inst = none := by
          simp only [CodeBuilder.push, hg]
          rw [if_neg hle]
        simp only [CodeBuilder.extend_from_slice]
        rw [batchLens_cons_some hg, if_neg hle]
        simp only [pushAll, hp]

theorem envLookup_mem {s : Symbol} {st : VirtualMachineSymbolState} {env : SymState}
    (h : envLookup s env = some st) : (s, st) ∈ env := by
  induction env with
  | nil => exact Option.noConfusion h
  | cons p rest ih =>
    obtain ⟨q, w⟩ := p
    by_cases hq : q = s
    · simp only [envLookup, if_pos hq] at h
      injection h with h
      subst hq
      subst h
      exact List.mem_cons_self _ _
    · simp only [envLookup, if_neg hq] at h
      exact List.mem_cons_of_mem _ (ih h)

theorem mem_envSet {p : Symbol × VirtualMachineSymbolState} {s : Symbol}
    {st : VirtualMachineSymbolState} {env : SymState} (h : p ∈ envSet s st env) :
    p = (s, st) ∨ p ∈ env := by
  induction env with
  | nil =>
    simp only [envSet] at h
    rcases List.mem_cons.mp h with h | h
    · exact Or.inl h
    · exact absurd h (List.not_mem_nil _)
  | cons q rest ih =>
    obtain ⟨a, b⟩ := q
    simp only [envSet] at h
    by_cases ha : a = s
    · rw [if_pos ha] at h
      rcases List.mem_cons.mp h with h | h
      · exact Or.inl h
      · exact Or.inr (List.mem_cons_of_mem _ h)
    · rw [if_neg ha] at h
      rcases List.mem_cons.mp h with h | h
      · exact Or.inr (h ▸ List.mem_cons_self _ _)
      · rcases ih h with h | h
        · exact Or.inl h
        · exact Or.inr (List.mem_cons_of_mem _ h)

theorem mem_envRemove {p : Symbol × VirtualMachineSymbolState} {s : Symbol}
    {env : SymState} (h : p ∈ envRemove s env) : p ∈ env :=
  (List.mem_filter.mp h).1

theorem push_parts {cb : CodeBuilder} {inst : Instruction} {cb1 : CodeBuilder}
    (h : cb.push inst = some cb1) :
    cb1.insertions = cb.insertions ∧ cb1.code = cb.code ++ [inst] := by
  simp only [CodeBuilder.push] at h
  split at h
  · exact Option.noConfusion h
  · split at h
    · injection h with h
      subst h
      exact ⟨rfl, rfl⟩
    · exact Option.noConfusion h

theorem extend_parts {cb : CodeBuilder} {insts : List Instruction} {cb1 : CodeBuilder}
    (h : cb.extend_from_slice insts = some cb1) :
    cb1.insertions = cb.insertions ∧ cb1.code = cb.code ++ insts := by
  simp only [CodeBuilder.extend_from_slice] at h
  split at h
  · exact Option.noConfusion h
  · injection h with h
    subst h
    exact ⟨rfl, rfl⟩

theorem push_call_parts {cb : CodeBuilder} {fi pops : Nat} {psh : Bool} {cb1 : CodeBuilder}
    (h : cb.push_call fi pops psh = .ok cb1) :
    cb1.insertions = cb.insertions ∧ cb1.code = cb.code ++ [.Call fi] := by
  simp only [CodeBuilder.push_call] at h
  split at h
  · exact Except.noConfusion h
  · injection h with h
    subst h
    exact ⟨rfl, rfl⟩

theorem set_top_symbol_parts {cb : CodeBuilder} {sym : Symbol}
    {r : CodeBuilder × VirtualMachineSymbolState}
    (h : cb.set_top_symbol sym = some r) :
    r.1.insertions = cb.insertions ∧ r.1.code = cb.code ∧
      r.2 = .Pushed cb.code.length := by
  simp only [CodeBuilder.set_top_symbol] at h
  split at h
  · exact Option.noConfusion h
  · injection h with h
    subst h
    exact ⟨rfl, rfl, rfl⟩

theorem load_symbol_parts {cb : CodeBuilder} {s : Symbol} {st : VirtualMachineSymbolState}
    {L : LocalId} {r : CodeBuilder × Option VirtualMachineSymbolState}
    (h : cb.load_symbol s st L = some r) :
    (r.1 = cb ∧ ∃ k, st = .Pushed k ∧ r.2 = some (.Popped k)) ∨
    (∃ k v, (st = .Pushed k ∨ st = .Popped k) ∧ r.2 = none ∧
      r.1.code = cb.code ++ [.GetLocal L.id] ∧
      r.1.insertions = insertBTree k v cb.insertions) := by
  cases st with
  | NotYetPushed => exact Option.noConfusion h
  | Pushed k =>
    simp only [CodeBuilder.load_symbol] at h
    split at h
    · exact Option.noConfusion h
    · split at h
      · injection h with h
        subst h
        exact Or.inl ⟨rfl, k, rfl, rfl⟩
      · split at h
        · injection h with h
          subst h
          exact Or.inr ⟨k, _, Or.inl rfl, rfl, rfl, rfl⟩
        · exact Option.noConfusion h
  | Popped k =>
    simp only [CodeBuilder.load_symbol] at h
    injection h with h
    subst h
    exact Or.inr ⟨k, _, Or.inr rfl, rfl, rfl, rfl⟩

/-- C9 counterexample: the realistic `A + A` sequence — produce a value,
bind it, resolve it twice in a row.  The second resolve (the `Popped`
spill path) inserts its ledger entry at the anchor `producedAt = 1` while
the buffer still has length 1: the anchor equals the buffer length, so the
anchored position is not yet present in the buffer at the time of the
insertion (it only becomes present when the same call appends its
`GetLocal`). -/
theorem tee_insert_at_buffer_length :
    CodeBuilder.push CodeBuilder.new (.I32Const 0) = some ⟨[.I32Const 0], [], [0]⟩ ∧
    CodeBuilder.set_top_symbol ⟨[.I32Const 0], [], [0]⟩ 5 =
      some (⟨[.I32Const 0], [], [5]⟩, .Pushed 1) ∧
    CodeBuilder.load_symbol ⟨[.I32Const 0], [], [5]⟩ 5 (.Pushed 1) ⟨0⟩ =
      some (⟨[.I32Const 0], [], [5]⟩, some (.Popped 1)) ∧
    CodeBuilder.load_symbol ⟨[.I32Const 0], [], [5]⟩ 5 (.Popped 1) ⟨0⟩ =
      some (⟨[.I32Const 0, .GetLocal 0], [(1, .TeeLocal 0)], [5, 5]⟩, none) ∧
    ¬ (1 < ([.I32Const 0] : List Instruction).length) :=
  ⟨rfl, rfl, rfl, rfl, by decide⟩

/-- C9 (amended): across every sequence of builder operations with honest
threading of the lifecycle states, every recorded `producedAt` is at most
the buffer length (it can equal it: `set_top_symbol` records the current
buffer length and the buffer need not grow before the spill, as when a
symbol is resolved twice in a row); and because the inserting call appends
its `GetLocal` in the same operation, every ledger key is strictly below
the buffer length at every point between operations — keys are never
dangling when finalization runs. -/
theorem ledger_key_invariant (t : TraceState) (h : Reachable t) : StateInv t := by
  induction h with
  | start =>
    constructor
    · intro p hp k hk
      exact absurd hp (List.not_mem_nil _)
    · intro kv hm
      exact absurd hm (List.not_mem_nil _)
  | step t t1 hr hstep ih =>
    obtain ⟨ihE, ihI⟩ := ih
    cases hstep with
    | push inst cb1 h =>
      obtain ⟨hI, hC⟩ := push_parts h
      constructor
      · intro p hp k hk
        show k ≤ cb1.code.length
        have hp2 : p ∈ t.env := hp
        have h1 := ihE p hp2 k hk
        rw [hC]
        simp only [List.length_append, List.length_cons, List.length_nil]
        omega
      · intro kv hm
        show kv.1 < cb1.code.length
        have hm2 : kv ∈ cb1.insertions := hm
        rw [hI] at hm2
        have h1 := ihI kv hm2
        rw [hC]
        simp only [List.length_append, List.length_cons, List.length_nil]
        omega
    | extend insts cb1 h =>
      obtain ⟨hI, hC⟩ := extend_parts h
      constructor
      · intro p hp k hk
        show k ≤ cb1.code.length
        have hp2 : p ∈ t.env := hp
        have h1 := ihE p hp2 k hk
        rw [hC]
        simp only [List.length_append]
        omega
      · intro kv hm
        show kv.1 < cb1.code.length
        have hm2 : kv ∈ cb1.insertions := hm
        rw [hI] at hm2
        have h1 := ihI kv hm2
        rw [hC]
        simp only [List.length_append]
        omega
    | call fi pops psh cb1 h =>
      obtain ⟨hI, hC⟩ := push_call_parts h
      constructor
      · intro p hp k hk
        show k ≤ cb1.code.length
        have hp2 : p ∈ t.env := hp
        have h1 := ihE p hp2 k hk
        rw [hC]
        simp only [List.length_append, List.length_cons, List.length_nil]
        omega
      · intro kv hm
        show kv.1 < cb1.code.length
        have hm2 : kv ∈ cb1.insertions := hm
        rw [hI] at hm2
        have h1 := ihI kv hm2
        rw [hC]
        simp only [List.length_append, List.length_cons, List.length_nil]
        omega
    | setTop s cb1 st h =>
      obtain ⟨hI0, hC0, hst0⟩ := set_top_symbol_parts h
      have hI : cb1.insertions = t.builder.insertions := hI0
      have hC : cb1.code = t.builder.code := hC0
      have hst : st = .Pushed t.builder.code.length := hst0
      subst hst
      constructor
      · intro p hp k hk
        show k ≤ cb1.code.length
        have hp2 : p ∈ envSet s (.Pushed t.builder.code.length) t.env := hp
        rcases mem_envSet hp2 with he | hp0
        · subst he
          have hk2 : VirtualMachineSymbolState.Pushed t.builder.code.length
                = VirtualMachineSymbolState.Pushed k
              ∨ VirtualMachineSymbolState.Pushed t.builder.code.length
                = VirtualMachineSymbolState.Popped k := hk
          rcases hk2 with hk2 | hk2
          · injection hk2 with hk2
            rw [hC, ← hk2]
          · exact VirtualMachineSymbolState.noConfusion hk2
        · rw [hC]
          exact ihE p hp0 k hk
      · intro kv hm
        show kv.1 < cb1.code.length
        have hm2 : kv ∈ cb1.insertions := hm
        rw [hI] at hm2
        rw [hC]
        exact ihI kv hm2
    | load s st L cb1 r henv h =>
      have hmem : (s, st) ∈ t.env := envLookup_mem henv
      rcases load_symbol_parts h with
        ⟨hcb0, k0, hst, hr0⟩ | ⟨k0, v, hst, hr0, hC0, hI0⟩
      · have hcb : cb1 = t.builder := hcb0
        have hr : r = some (.Popped k0) := hr0
        subst hr
        subst hst
        constructor
        · intro p hp k hk
          show k ≤ cb1.code.length
          have hp2 : p ∈ envSet s (.Popped k0) t.env := hp
          rcases mem_envSet hp2 with he | hp0
          · subst he
            have hk2 : VirtualMachineSymbolState.Popped k0
                  = VirtualMachineSymbolState.Pushed k
                ∨ VirtualMachineSymbolState.Popped k0
                  = VirtualMachineSymbolState.Popped k := hk
            rcases hk2 with hk2 | hk2
            · exact VirtualMachineSymbolState.noConfusion hk2
            · injection hk2 with hk2
              subst hk2
              rw [hcb]
              exact ihE (s, .Pushed k0) hmem k0 (Or.inl rfl)
          · rw [hcb]
            exact ihE p hp0 k hk
        · intro kv hm
          show kv.1 < cb1.code.length
          have hm2 : kv ∈ cb1.insertions := hm
          rw [hcb] at hm2 ⊢
          exact ihI kv hm2
      · have hr : r = none := hr0
        have hC : cb1.code = t.builder.code ++ [.GetLocal L.id] := hC0
        have hI : cb1.insertions = insertBTree k0 v t.builder.insertions := hI0
        subst hr
        have hk0 : k0 ≤ t.builder.code.length := by
          rcases hst with hst | hst
          · subst hst
            exact ihE (s, _) hmem k0 (Or.inl rfl)
          · subst hst
            exact ihE (s, _) hmem k0 (Or.inr rfl)
        have hlen : cb1.code.length = t.builder.code.length + 1 := by
          rw [hC]
          simp
        constructor
        · intro p hp k hk
          show k ≤ cb1.code.length
          have hp2 : p ∈ envRemove s t.env := hp
          have hp1 : p ∈ t.env := mem_envRemove hp2
          rw [hlen]
          exact Nat.le_trans (ihE p hp1 k hk) (Nat.le_succ _)
        · intro kv hm
          show kv.1 < cb1.code.length
          have hm2 : kv ∈ cb1.insertions := hm
          rw [hI] at hm2
          rcases mem_insertBTree hm2 with he | hm0
          · subst he
            show k0 < cb1.code.length
            rw [hlen]
            omega
          · rw [hlen]
            exact Nat.lt_succ_of_lt (ihI kv hm0)
    | clear =>
      constructor
      · intro p hp k hk
        exact absurd hp (List.not_mem_nil _)
      · intro kv hm
        exact absurd hm (List.not_mem_nil _)

theorem ledger_key_invariant_witness :
    StateInv ⟨⟨[.I32Const 0, .GetLocal 0], [(1, .TeeLocal 0)], [5, 5]⟩, []⟩ := by
  have r0 : Reachable ⟨CodeBuilder.new, []⟩ := Reachable.start
  have r1 : Reachable ⟨⟨[.I32Const 0], [], [0]⟩, ([] : SymState)⟩ :=
    Reachable.step ⟨CodeBuilder.new, []⟩ _ r0
      (Step.push ⟨CodeBuilder.new, []⟩ (.I32Const 0) ⟨[.I32Const 0], [], [0]⟩ rfl)
  have r2 : Reachable ⟨⟨[.I32Const 0], [], [5]⟩, [(5, .Pushed 1)]⟩ :=
    Reachable.step ⟨⟨[.I32Const 0], [], [0]⟩, ([] : SymState)⟩ _ r1
      (Step.setTop ⟨⟨[.I32Const 0], [], [0]⟩, ([] : SymState)⟩ 5
        ⟨[.I32Const 0], [], [5]⟩ (.Pushed 1) rfl)
  have r3 : Reachable ⟨⟨[.I32Const 0], [], [5]⟩, [(5, .Popped 1)]⟩ :=
    Reachable.step ⟨⟨[.I32Const 0], [], [5]⟩, [(5, .Pushed 1)]⟩ _ r2
      (Step.load ⟨⟨[.I32Const 0], [], [5]⟩, [(5, .Pushed 1)]⟩ 5 (.Pushed 1) ⟨0⟩
        ⟨[.I32Const 0], [], [5]⟩ (some (.Popped 1)) rfl rfl)
  have r4 : Reachable ⟨⟨[.I32Const 0, .GetLocal 0], [(1, .TeeLocal 0)], [5, 5]⟩,
      ([] : SymState)⟩ :=
    Reachable.step ⟨⟨[.I32Const 0], [], [5]⟩, [(5, .Popped 1)]⟩ _ r3
      (Step.load ⟨⟨[.I32Const 0], [], [5]⟩, [(5, .Popped 1)]⟩ 5 (.Popped 1) ⟨0⟩
        ⟨[.I32Const 0, .GetLocal 0], [(1, .TeeLocal 0)], [5, 5]⟩ none rfl rfl)
  exact ledger_key_invariant _ r4

end GenWasm
